import Mathlib

/-!
Verification of the commit-activity aggregation core of the `github-stats`
repository (Go).  The definitions below are shallow embeddings of the
functions in `internal/github/stats.go` and `internal/github/client.go`;
network calls are modelled as explicit oracle parameters, goroutine fan-outs
as their sequential linearization (completion order = list order), Go maps as
association lists, `float64` as exact rationals, and `time.Time` (always in
UTC in this code) as a calendar-day index plus a second-of-day.
-/

/-- Days since 1970-01-01 of the civil date `y-m-d` (proleptic Gregorian,
`y ≥ 1`).  This is the standard days-from-civil computation; Go's
`time.Date(y, m, d, 0, 0, 0, 0, time.UTC)` denotes exactly this day's UTC
midnight, so the bijection day-index ↔ (year, month, day) lets the model
work with day indices throughout. -/
def daysFromCivil (y m d : Nat) : Int :=
  let yAdj := if m ≤ 2 then y - 1 else y
  let era := yAdj / 400
  let yoe := yAdj % 400
  let mp := (m + 9) % 12
  let doy := (153 * mp + 2) / 5 + d - 1
  let doe := yoe * 365 + yoe / 4 - yoe / 100 + doy
  (era * 146097 + doe : Int) - 719468

/-- A UTC instant as Go's `time.Time` is used by this code: `day` is the
calendar-day index (days since 1970-01-01 UTC) and `sec` the second within
that day.  `Year()/Month()/Day()` plus `time.Date(..., time.UTC)` truncate an
instant to its day (keep `day`, drop `sec`); `Format("2006-01-02")` is
injective in `day`; and `Sub(...).Hours() / 24` of two UTC midnights is
exactly the difference of their `day` indices. -/
structure Timestamp where
  day : Int
  sec : Nat
  deriving Repr, DecidableEq

/-- Result record of `calculateStreaks` (Go type `StreakInfo` in the github
package).  Date fields are `Option Int` day indices; `none` models Go's zero
`time.Time` (field left unset).  `CommitDates` holds the deduplicated
ascending day indices (in Go: the normalized UTC midnights). -/
structure StreakInfo where
  CurrentStreak : Nat
  MaxStreak : Nat
  CurrentStart : Option Int
  MaxStart : Option Int
  MaxEnd : Option Int
  CommitDates : List Int
  deriving Repr, DecidableEq

/-- Loop state of the streak walk in `calculateStreaks` (the Go local
variables `currentStreak, maxStreak, currentStart, maxStart, maxEnd`). -/
structure WalkState where
  currentStreak : Nat
  maxStreak : Nat
  currentStart : Int
  maxStart : Int
  maxEnd : Int
  deriving Repr, DecidableEq

/-- The `for i := 1; i < len(uniqueDates); i++` loop of `calculateStreaks`
(stats.go lines 152-168): `prev` is `uniqueDates[i-1]`, the list argument the
remaining dates, and the returned `Int` is the last date seen
(`uniqueDates[len-1]`).  `daysDiff` of two UTC midnights is exact, so it is
the difference of day indices. -/
def streakWalk (prev : Int) (st : WalkState) : List Int → Int × WalkState
  | [] => (prev, st)
  | d :: rest =>
    if d - prev = 1 then
      streakWalk d { st with currentStreak := st.currentStreak + 1 } rest
    else if d - prev = 0 then
      streakWalk d st rest
    else
      let st1 := if st.maxStreak < st.currentStreak then
          { st with maxStreak := st.currentStreak, maxStart := st.currentStart,
                    maxEnd := prev }
        else st
      streakWalk d { st1 with currentStreak := 1, currentStart := d } rest

/-- The dedup-and-sort preamble of `calculateStreaks` (stats.go lines
121-136): build `dateSet` keyed by the formatted date string (injective in
the day index, value the normalized midnight), collect the values and sort
ascending.  The Go map iteration order is unspecified but the subsequent
sort makes the result deterministic: the distinct day indices in ascending
order. -/
def uniqueDays (commitDates : List Timestamp) : List Int :=
  List.insertionSort (· ≤ ·) (commitDates.map Timestamp.day).dedup

/-- Body of `calculateStreaks` after the preamble (stats.go lines 142-192),
taking the sorted deduplicated day list and `today` (the UTC day index of
`time.Now()`).  `daysSinceLastCommit` of two midnights is exact, hence
`today - last`. -/
def streaksOfUnique (uniq : List Int) (today : Int) : StreakInfo :=
  match uniq with
  | [] => ⟨0, 0, none, none, none, []⟩
  | d0 :: rest =>
    let w := streakWalk d0 ⟨1, 1, d0, d0, d0⟩ rest
    let st := if w.2.maxStreak < w.2.currentStreak then
        { w.2 with maxStreak := w.2.currentStreak, maxStart := w.2.currentStart,
                   maxEnd := w.1 }
      else w.2
    if today - w.1 ≤ 1 then
      ⟨st.currentStreak, st.maxStreak, some st.currentStart, some st.maxStart,
        some st.maxEnd, d0 :: rest⟩
    else
      ⟨0, st.maxStreak, none, some st.maxStart, some st.maxEnd, d0 :: rest⟩

/-- Go `calculateStreaks` (stats.go lines 116-193).  The call to
`time.Now()` is made explicit as the `today` parameter (UTC day index). -/
def calculateStreaks (commitDates : List Timestamp) (today : Int) : StreakInfo :=
  if commitDates.isEmpty then ⟨0, 0, none, none, none, []⟩
  else streaksOfUnique (uniqueDays commitDates) today

theorem calculateStreaks_cons (x : Timestamp) (xs : List Timestamp) (today : Int) :
    calculateStreaks (x :: xs) today = streaksOfUnique (uniqueDays (x :: xs)) today := rfl

theorem calculateStreaks_nil (today : Int) :
    calculateStreaks [] today = ⟨0, 0, none, none, none, []⟩ := rfl

/-- Literal input of the first streak test vector: days 2024-01-01,
2024-01-02, 2024-01-03, 2024-01-10, each at UTC midnight. -/
def exDaysA : List Timestamp :=
  [⟨daysFromCivil 2024 1 1, 0⟩, ⟨daysFromCivil 2024 1 2, 0⟩,
   ⟨daysFromCivil 2024 1 3, 0⟩, ⟨daysFromCivil 2024 1 10, 0⟩]

/-- Literal input of the gap test vector: days 2024-03-01 and 2024-03-05. -/
def exDaysB : List Timestamp :=
  [⟨daysFromCivil 2024 3 1, 0⟩, ⟨daysFromCivil 2024 3 5, 0⟩]

/-- C1 counterexample: with "today" = 2024-01-05 — neither Jan 10 nor
Jan 11 — the reducer still reports currentStreak = 1 for the input
[2024-01-01, 2024-01-02, 2024-01-03, 2024-01-10], because the activity test
`daysSinceLastCommit <= 1` also accepts any "today" before the last activity
day.  This refutes "currentStreak = 1 exactly when today is Jan 10 or
Jan 11, otherwise 0". -/
theorem C1_streak_counterexample :
    (calculateStreaks exDaysA (daysFromCivil 2024 1 5)).CurrentStreak = 1 ∧
    daysFromCivil 2024 1 5 ≠ daysFromCivil 2024 1 10 ∧
    daysFromCivil 2024 1 5 ≠ daysFromCivil 2024 1 11 := by
  refine ⟨rfl, by decide, by decide⟩

/-- C1 (amended): for the input days [2024-01-01, 2024-01-02, 2024-01-03,
2024-01-10] the reducer returns maxStreak = 3 with range Jan 1 to Jan 3, and
currentStreak = 1 exactly when "today" (UTC) is on or before 2024-01-11
(among days not before the last activity day, that is exactly Jan 10 and
Jan 11; any earlier "today" also yields 1), otherwise currentStreak = 0;
for the input days [2024-03-01, 2024-03-05] it returns maxStreak = 1. -/
theorem C1_streak_test_vectors (today : Int) :
    calculateStreaks exDaysA today =
      { CurrentStreak := if today ≤ daysFromCivil 2024 1 11 then 1 else 0
        MaxStreak := 3
        CurrentStart := if today ≤ daysFromCivil 2024 1 11 then
            some (daysFromCivil 2024 1 10) else none
        MaxStart := some (daysFromCivil 2024 1 1)
        MaxEnd := some (daysFromCivil 2024 1 3)
        CommitDates := [daysFromCivil 2024 1 1, daysFromCivil 2024 1 2,
          daysFromCivil 2024 1 3, daysFromCivil 2024 1 10] } ∧
    (calculateStreaks exDaysB today).MaxStreak = 1 := by
  constructor
  · have hA : calculateStreaks exDaysA today =
        if today - 19732 ≤ 1 then
          (⟨1, 3, some 19732, some 19723, some 19725,
            [19723, 19724, 19725, 19732]⟩ : StreakInfo)
        else ⟨0, 3, none, some 19723, some 19725,
          [19723, 19724, 19725, 19732]⟩ := rfl
    rw [hA]
    have h11 : daysFromCivil 2024 1 11 = 19733 := by decide
    have h10 : daysFromCivil 2024 1 10 = 19732 := by decide
    have h1 : daysFromCivil 2024 1 1 = 19723 := by decide
    have h2 : daysFromCivil 2024 1 2 = 19724 := by decide
    have h3 : daysFromCivil 2024 1 3 = 19725 := by decide
    rw [h11, h10, h1, h2, h3]
    by_cases h : today - (19732 : Int) ≤ 1
    · rw [if_pos h, if_pos (by omega), if_pos (by omega)]
    · rw [if_neg h, if_neg (by omega), if_neg (by omega)]
  · have hB : calculateStreaks exDaysB today =
        if today - 19787 ≤ 1 then
          (⟨1, 1, some 19787, some 19783, some 19783, [19783, 19787]⟩ : StreakInfo)
        else ⟨0, 1, none, some 19783, some 19783, [19783, 19787]⟩ := rfl
    rw [hB]
    by_cases h : today - (19787 : Int) ≤ 1
    · rw [if_pos h]
    · rw [if_neg h]

theorem uniqueDays_perm (l : List Timestamp) :
    (uniqueDays l).Perm (l.map Timestamp.day).dedup :=
  List.perm_insertionSort _ _

theorem uniqueDays_nodup (l : List Timestamp) : (uniqueDays l).Nodup :=
  (uniqueDays_perm l).nodup_iff.mpr (List.nodup_dedup _)

theorem mem_uniqueDays {d : Int} {l : List Timestamp} :
    d ∈ uniqueDays l ↔ d ∈ l.map Timestamp.day := by
  rw [(uniqueDays_perm l).mem_iff, List.mem_dedup]

theorem uniqueDays_sorted (l : List Timestamp) :
    List.Sorted (· ≤ ·) (uniqueDays l) :=
  List.sorted_insertionSort _ _

theorem streaksOfUnique_commitDates (uniq : List Int) (today : Int) :
    (streaksOfUnique uniq today).CommitDates = uniq := by
  cases uniq with
  | nil => rfl
  | cons d0 rest =>
    simp only [streaksOfUnique]
    split <;> rfl

theorem calculateStreaks_commitDates (l : List Timestamp) (today : Int) :
    (calculateStreaks l today).CommitDates = uniqueDays l := by
  cases l with
  | nil => rfl
  | cons x xs => rw [calculateStreaks_cons, streaksOfUnique_commitDates]

theorem streakWalk_maxStreak_mono (l : List Int) (prev : Int) (st : WalkState) :
    st.maxStreak ≤ (streakWalk prev st l).2.maxStreak := by
  induction l generalizing prev st with
  | nil => simp [streakWalk]
  | cons d rest ih =>
    simp only [streakWalk]
    split
    · exact ih d { st with currentStreak := st.currentStreak + 1 }
    · split
      · exact ih d st
      · refine le_trans ?_ (ih d _)
        split
        · simp only
          omega
        · exact le_refl _

theorem uniqueDays_ne_nil (x : Timestamp) (xs : List Timestamp) :
    uniqueDays (x :: xs) ≠ [] := by
  intro h
  have hx : x.day ∈ uniqueDays (x :: xs) := mem_uniqueDays.mpr (by simp)
  simp [h] at hx

theorem streaksOfUnique_bounds (d0 : Int) (rest : List Int) (today : Int) :
    (streaksOfUnique (d0 :: rest) today).CurrentStreak
        ≤ (streaksOfUnique (d0 :: rest) today).MaxStreak ∧
    1 ≤ (streaksOfUnique (d0 :: rest) today).MaxStreak := by
  have hw := streakWalk_maxStreak_mono rest d0 ⟨1, 1, d0, d0, d0⟩
  rcases hws : streakWalk d0 ⟨1, 1, d0, d0, d0⟩ rest with ⟨last, st0⟩
  rw [hws] at hw
  have hw1 : 1 ≤ st0.maxStreak := by simpa using hw
  simp only [streaksOfUnique, hws]
  split_ifs with hA hB hB <;> constructor <;> simp <;> omega

/-- C4: for any input multiset of timestamps, the deduplicated activity list
the streak reducer stores in `StreakInfo.CommitDates` (whose length becomes
`TotalCommitDays`) has at most one entry per calendar day — dedup is by the
formatted date string, injective in the day index — and its length equals
the number of distinct calendar days among the inputs. -/
theorem C4_dedup_invariant (commitDates : List Timestamp) (today : Int) :
    (calculateStreaks commitDates today).CommitDates.Nodup ∧
    (calculateStreaks commitDates today).CommitDates.length
      = (commitDates.map Timestamp.day).toFinset.card := by
  rw [calculateStreaks_commitDates]
  refine ⟨uniqueDays_nodup _, ?_⟩
  rw [(uniqueDays_perm _).length_eq, List.card_toFinset]

/-- C5: for every input list and every "today", the streak reducer returns
maxStreak ≥ currentStreak ≥ 0 (the counters are naturals in the model, and
in Go they are nonnegative counts), maxStreak ≥ 1 whenever the input is
non-empty, and the all-zero/unset record on empty input. -/
theorem C5_streak_monotonicity (commitDates : List Timestamp) (today : Int) :
    (calculateStreaks commitDates today).CurrentStreak
        ≤ (calculateStreaks commitDates today).MaxStreak ∧
    0 ≤ (calculateStreaks commitDates today).CurrentStreak ∧
    (commitDates ≠ [] → 1 ≤ (calculateStreaks commitDates today).MaxStreak) ∧
    calculateStreaks [] today = ⟨0, 0, none, none, none, []⟩ := by
  cases commitDates with
  | nil => exact ⟨le_refl _, Nat.zero_le _, fun h => absurd rfl h, rfl⟩
  | cons x xs =>
    rw [calculateStreaks_cons]
    rcases hu : uniqueDays (x :: xs) with _ | ⟨d0, rest⟩
    · exact absurd hu (uniqueDays_ne_nil x xs)
    · have hb := streaksOfUnique_bounds d0 rest today
      exact ⟨hb.1, Nat.zero_le _, fun _ => hb.2, rfl⟩

theorem C5_streak_monotonicity_witness :
    ([⟨0, 0⟩] : List Timestamp) ≠ [] ∧
    1 ≤ (calculateStreaks [⟨0, 0⟩] 0).MaxStreak :=
  ⟨by decide, (C5_streak_monotonicity [⟨0, 0⟩] 0).2.2.1 (by decide)⟩

/-- C10: the streak reducer's output depends only on the set of calendar
days of its input timestamps: for a fixed "today", any two inputs with the
same set of day indices (permutations, duplicated elements, timestamps
replaced within the same day) produce identical `StreakInfo` records. -/
theorem C10_day_set_determines (l l' : List Timestamp) (today : Int)
    (h : ∀ d : Int, d ∈ l.map Timestamp.day ↔ d ∈ l'.map Timestamp.day) :
    calculateStreaks l today = calculateStreaks l' today := by
  have hu : uniqueDays l = uniqueDays l' := by
    apply List.eq_of_perm_of_sorted ?_ (uniqueDays_sorted l) (uniqueDays_sorted l')
    rw [List.perm_ext_iff_of_nodup (uniqueDays_nodup l) (uniqueDays_nodup l')]
    intro a
    rw [mem_uniqueDays, mem_uniqueDays]
    exact h a
  cases l with
  | nil =>
    cases l' with
    | nil => rfl
    | cons y ys =>
      exfalso
      have hy := (h y.day).mpr (by simp)
      simp at hy
  | cons x xs =>
    cases l' with
    | nil =>
      exfalso
      have hx := (h x.day).mp (by simp)
      simp at hx
    | cons y ys => rw [calculateStreaks_cons, calculateStreaks_cons, hu]

theorem C10_day_set_determines_witness :
    (∀ d : Int, d ∈ ([⟨5, 10⟩, ⟨5, 20⟩, ⟨7, 0⟩] : List Timestamp).map Timestamp.day ↔
        d ∈ ([⟨7, 3⟩, ⟨5, 0⟩] : List Timestamp).map Timestamp.day) ∧
    calculateStreaks [⟨5, 10⟩, ⟨5, 20⟩, ⟨7, 0⟩] 8
      = calculateStreaks [⟨7, 3⟩, ⟨5, 0⟩] 8 := by
  have hmem : ∀ d : Int,
      d ∈ ([⟨5, 10⟩, ⟨5, 20⟩, ⟨7, 0⟩] : List Timestamp).map Timestamp.day ↔
        d ∈ ([⟨7, 3⟩, ⟨5, 0⟩] : List Timestamp).map Timestamp.day := by
    intro d
    simp only [List.map, List.mem_cons, List.not_mem_nil, or_false]
    constructor <;> intro hd <;> tauto
  exact ⟨hmem, C10_day_set_determines _ _ 8 hmem⟩

/-- One entry of the derived language ranking (Go type `LanguageStat`); the
Go `float64` percentage is modelled as an exact rational. -/
structure LanguageStat where
  Name : String
  Bytes : Int
  Percentage : ℚ
  deriving Repr, DecidableEq

/-- Result of `GetLanguageStats` (Go type `LanguageStats`); the input
`map[string]int64` is an association list (one entry per key, iteration
order made explicit by the list order). -/
structure LanguageStats where
  Languages : List (String × Int)
  TotalBytes : Int
  TopLanguages : List LanguageStat
  deriving Repr, DecidableEq

/-- Go `GetLanguageStats` (stats.go lines 297-323): sum all byte counts,
derive each language's percentage as `bytes / total * 100` guarded by
`TotalBytes > 0` (else 0.0), and sort descending by byte count.  Go's
`sort.Slice` is unstable; `insertionSort` with `b.Bytes ≤ a.Bytes` is one
permutation sorted by that order, which is all the source guarantees. -/
def GetLanguageStats (languages : List (String × Int)) : LanguageStats :=
  let total := (languages.map Prod.snd).sum
  let tops := languages.map fun p =>
    (⟨p.1, p.2, if 0 < total then (p.2 : ℚ) / (total : ℚ) * 100 else 0⟩ : LanguageStat)
  { Languages := languages
    TotalBytes := total
    TopLanguages := List.insertionSort (fun a b => b.Bytes ≤ a.Bytes) tops }

theorem GetLanguageStats_totalBytes (languages : List (String × Int)) :
    (GetLanguageStats languages).TotalBytes = (languages.map Prod.snd).sum := rfl

theorem GetLanguageStats_top_perm (languages : List (String × Int)) :
    (GetLanguageStats languages).TopLanguages.Perm
      (languages.map fun p =>
        (⟨p.1, p.2, if 0 < (languages.map Prod.snd).sum then
            (p.2 : ℚ) / ((languages.map Prod.snd).sum : ℚ) * 100 else 0⟩ : LanguageStat)) :=
  List.perm_insertionSort _ _

/-- C8 counterexample: the singleton map `{"Go" ↦ 0}` is non-empty, yet its
total is 0, every derived percentage is 0, and the percentages sum to 0, not
100 — refuting "for every non-empty language map the percentages sum to
100". -/
theorem C8_percentage_counterexample :
    (GetLanguageStats [("Go", 0)]).TopLanguages ≠ [] ∧
    ((GetLanguageStats [("Go", 0)]).TopLanguages.map LanguageStat.Percentage).sum = 0 ∧
    ((GetLanguageStats [("Go", 0)]).TopLanguages.map LanguageStat.Percentage).sum ≠ 100 := by
  refine ⟨by decide, ?_, ?_⟩ <;>
    norm_num [GetLanguageStats, List.insertionSort, List.orderedInsert]

/-- C8 (amended): every derived percentage equals `bytes / total * 100`
guarded by `total > 0` — when the total is not positive every percentage is
0 and no division is attempted — and for every language map whose total byte
count is positive the percentages sum to exactly 100 (exact rational
arithmetic models the Go float64 computation, whose sum is 100 up to
floating-point epsilon). -/
theorem C8_percentage_invariant (languages : List (String × Int)) :
    (∀ s ∈ (GetLanguageStats languages).TopLanguages,
      s.Percentage = if 0 < (GetLanguageStats languages).TotalBytes then
          (s.Bytes : ℚ) / ((GetLanguageStats languages).TotalBytes : ℚ) * 100
        else 0) ∧
    (¬ 0 < (GetLanguageStats languages).TotalBytes →
      ∀ s ∈ (GetLanguageStats languages).TopLanguages, s.Percentage = 0) ∧
    (0 < (GetLanguageStats languages).TotalBytes →
      ((GetLanguageStats languages).TopLanguages.map LanguageStat.Percentage).sum
        = 100) := by
  have hperm := GetLanguageStats_top_perm languages
  have hmem : ∀ s ∈ (GetLanguageStats languages).TopLanguages,
      s.Percentage = if 0 < (GetLanguageStats languages).TotalBytes then
          (s.Bytes : ℚ) / ((GetLanguageStats languages).TotalBytes : ℚ) * 100
        else 0 := by
    intro s hs
    have hs2 := hperm.mem_iff.mp hs
    rw [List.mem_map] at hs2
    obtain ⟨p, _, hp⟩ := hs2
    rw [GetLanguageStats_totalBytes]
    cases hp
    rfl
  refine ⟨hmem, ?_, ?_⟩
  · intro htot s hs
    rw [hmem s hs, if_neg htot]
  · intro htot
    rw [(hperm.map LanguageStat.Percentage).sum_eq]
    rw [GetLanguageStats_totalBytes] at htot
    have htot' : ((languages.map Prod.snd).sum : ℚ) ≠ 0 := by
      exact_mod_cast ne_of_gt (by exact_mod_cast htot)
    rw [List.map_map]
    have hcomp : (LanguageStat.Percentage ∘ fun p : String × Int =>
        (⟨p.1, p.2, if 0 < (languages.map Prod.snd).sum then
            (p.2 : ℚ) / ((languages.map Prod.snd).sum : ℚ) * 100 else 0⟩ : LanguageStat))
        = fun p : String × Int => (p.2 : ℚ) / ((languages.map Prod.snd).sum : ℚ) * 100 := by
      funext p
      simp [if_pos htot]
    rw [hcomp]
    have hfactor : (fun p : String × Int =>
        (p.2 : ℚ) / ((languages.map Prod.snd).sum : ℚ) * 100)
        = fun p : String × Int =>
          (p.2 : ℚ) * (100 / ((languages.map Prod.snd).sum : ℚ)) := by
      funext p
      field_simp
    rw [hfactor, List.sum_map_mul_right]
    have hmm : (languages.map fun p : String × Int => (p.2 : ℚ))
        = (languages.map Prod.snd).map (fun b : Int => (b : ℚ)) := by
      rw [List.map_map]
      rfl
    have hsum : ((languages.map fun p : String × Int => (p.2 : ℚ)).sum)
        = (((languages.map Prod.snd).sum : Int) : ℚ) := by
      rw [hmm, Int.cast_list_sum]
    rw [hsum, ← mul_div_assoc, mul_comm, mul_div_assoc, div_self htot', mul_one]

theorem C8_percentage_invariant_witness :
    0 < (GetLanguageStats [("Go", 30), ("C", 70)]).TotalBytes ∧
    ((GetLanguageStats [("Go", 30), ("C", 70)]).TopLanguages.map
      LanguageStat.Percentage).sum = 100 :=
  ⟨by decide, (C8_percentage_invariant [("Go", 30), ("C", 70)]).2.2 (by decide)⟩

/-- A (repository name, count) ranking pair (Go type `RepoCount`). -/
structure RepoCount where
  RepoName : String
  Count : Nat
  deriving Repr, DecidableEq

/-- Inner loop of the nested-loop sort in `getTopRepos` (client.go lines
678-684) for a fixed outer index: `a` is the current `repos[i]`, the list
the elements at indices above `i`.  Whenever a later element's count
exceeds the pivot's, the two are swapped, so the displaced pivot stays at
that position and the larger element becomes the new pivot.  Returns the
final `repos[i]` and the final contents of the later positions. -/
def innerPass (a : RepoCount) : List RepoCount → RepoCount × List RepoCount
  | [] => (a, [])
  | b :: rest =>
    if a.Count < b.Count then
      ((innerPass b rest).1, a :: (innerPass b rest).2)
    else
      ((innerPass a rest).1, b :: (innerPass a rest).2)

theorem innerPass_snd_length (a : RepoCount) (l : List RepoCount) :
    (innerPass a l).2.length = l.length := by
  induction l generalizing a with
  | nil => rfl
  | cons b rest ih =>
    simp only [innerPass]
    split <;> simp [ih]

/-- Outer loop of the nested-loop sort in `getTopRepos` (client.go lines
678-684): each iteration fixes `repos[i]` to the result of one inner pass
and continues on the later positions. -/
def exchangeSort : List RepoCount → List RepoCount
  | [] => []
  | a :: rest => (innerPass a rest).1 :: exchangeSort (innerPass a rest).2
termination_by l => l.length
decreasing_by simp [innerPass_snd_length]

/-- Go `getTopRepos` (client.go lines 672-690): turn the count map into a
list of pairs (Go map iteration order is unspecified; the association-list
order makes it explicit), sort descending by count with the nested swap
loops, and keep at most `limit` entries. -/
def getTopRepos (repoCount : List (String × Nat)) (limit : Nat) : List RepoCount :=
  (exchangeSort (repoCount.map fun p => ⟨p.1, p.2⟩)).take limit

theorem innerPass_fst_ge (a : RepoCount) (l : List RepoCount) :
    a.Count ≤ (innerPass a l).1.Count ∧
    ∀ x ∈ (innerPass a l).2, x.Count ≤ (innerPass a l).1.Count := by
  induction l generalizing a with
  | nil => exact ⟨le_refl _, by simp [innerPass]⟩
  | cons b rest ih =>
    simp only [innerPass]
    split
    · rename_i hab
      refine ⟨le_trans (le_of_lt hab) (ih b).1, ?_⟩
      intro x hx
      rcases List.mem_cons.mp hx with hx | hx
      · subst hx
        exact le_trans (le_of_lt hab) (ih b).1
      · exact (ih b).2 x hx
    · rename_i hab
      refine ⟨(ih a).1, ?_⟩
      intro x hx
      rcases List.mem_cons.mp hx with hx | hx
      · subst hx
        exact le_trans (Nat.le_of_not_lt hab) (ih a).1
      · exact (ih a).2 x hx

theorem innerPass_perm (a : RepoCount) (l : List RepoCount) :
    ((innerPass a l).1 :: (innerPass a l).2).Perm (a :: l) := by
  induction l generalizing a with
  | nil => exact List.Perm.refl _
  | cons b rest ih =>
    simp only [innerPass]
    split
    · exact (List.Perm.swap a (innerPass b rest).1 (innerPass b rest).2).trans
        ((ih b).cons a)
    · exact ((List.Perm.swap b (innerPass a rest).1 (innerPass a rest).2).trans
        ((ih a).cons b)).trans (List.Perm.swap a b rest)

theorem exchangeSort_perm (l : List RepoCount) : (exchangeSort l).Perm l := by
  generalize hn : l.length = n
  induction n using Nat.strong_induction_on generalizing l with
  | _ n ih =>
    cases l with
    | nil => rw [exchangeSort]
    | cons a rest =>
      rw [exchangeSort]
      have hlen : (innerPass a rest).2.length = rest.length := innerPass_snd_length a rest
      simp only [List.length_cons] at hn
      have ihp := ih (innerPass a rest).2.length (by omega) (innerPass a rest).2 rfl
      exact (ihp.cons (innerPass a rest).1).trans (innerPass_perm a rest)

theorem exchangeSort_sorted (l : List RepoCount) :
    List.Pairwise (fun a b => b.Count ≤ a.Count) (exchangeSort l) := by
  generalize hn : l.length = n
  induction n using Nat.strong_induction_on generalizing l with
  | _ n ih =>
    cases l with
    | nil => rw [exchangeSort]; exact List.Pairwise.nil
    | cons a rest =>
      rw [exchangeSort]
      have hlen : (innerPass a rest).2.length = rest.length := innerPass_snd_length a rest
      simp only [List.length_cons] at hn
      refine List.Pairwise.cons ?_ (ih (innerPass a rest).2.length (by omega) _ rfl)
      intro x hx
      have hx2 : x ∈ (innerPass a rest).2 := (exchangeSort_perm _).mem_iff.mp hx
      exact (innerPass_fst_ge a rest).2 x hx2

/-- C9 counterexample: for the count map entries [("A", 2), ("B", 2),
("C", 3)] (first-seen order A before B), the swap-based nested-loop sort
returns [C, B, A]: the equal-count pair (A, B) has been reordered, so ties
are not broken by first-seen order and the sort is not stable. -/
theorem C9_stability_counterexample :
    getTopRepos [("A", 2), ("B", 2), ("C", 3)] 5
      = [⟨"C", 3⟩, ⟨"B", 2⟩, ⟨"A", 2⟩] ∧
    getTopRepos [("A", 2), ("B", 2), ("C", 3)] 5
      ≠ [⟨"C", 3⟩, ⟨"A", 2⟩, ⟨"B", 2⟩] := by
  have h : getTopRepos [("A", 2), ("B", 2), ("C", 3)] 5
      = [⟨"C", 3⟩, ⟨"B", 2⟩, ⟨"A", 2⟩] := by
    simp [getTopRepos, exchangeSort, innerPass]
  refine ⟨h, by rw [h]; decide⟩

/-- C9 (amended): the `RepoCount` ranking produced by `getTopRepos` (used
identically for the PR-per-repo and review-per-repo rankings) is sorted
descending by count and never exceeds the requested cap (5 at both call
sites) — but the swap-based sort is not stable: equal-count pairs may be
reordered, so ties carry no first-seen-order guarantee.  The result is a
prefix of a permutation of the input entries, and its length is the
minimum of the cap and the number of entries. -/
theorem C9_ranking_bounds (repoCount : List (String × Nat)) (limit : Nat) :
    List.Pairwise (fun a b => b.Count ≤ a.Count) (getTopRepos repoCount limit) ∧
    (getTopRepos repoCount limit).length ≤ limit ∧
    (getTopRepos repoCount limit).length = min limit repoCount.length := by
  have h3 : (getTopRepos repoCount limit).length = min limit repoCount.length := by
    rw [getTopRepos, List.length_take, (exchangeSort_perm _).length_eq,
      List.length_map]
  exact ⟨List.Pairwise.sublist (List.take_sublist _ _) (exchangeSort_sorted _),
    by omega, h3⟩

/-- Go `error` values; only identity matters to the aggregation logic, so
the message string stands for the whole value. -/
abbrev GoError := String

/-- RESULT-acquisition strategies of the commit-activity resolver, recorded
as an invocation trace by the model of `GetCommitActivity`. -/
inductive Strategy
  | calendar
  | recent
  | fullHistory
  deriving Repr, DecidableEq

/-- Go `GetCommitActivity` (client.go lines 162-172).  The three strategy
calls are modelled by their results: `cal` is what `GetContributionCalendar`
returns for this username (dates plus error), `recentRes` and `fullRes` what
`getCommitActivityRecent` and `getCommitActivityFull` would return.  The
second component records which strategies were invoked, in order. -/
def GetCommitActivity (cal recentRes fullRes : List Timestamp × Option GoError)
    (fullScan : Bool) : (List Timestamp × Option GoError) × List Strategy :=
  if cal.2 = none ∧ ¬ cal.1.isEmpty then
    ((cal.1, none), [Strategy.calendar])
  else if fullScan then
    (fullRes, [Strategy.calendar, Strategy.fullHistory])
  else
    (recentRes, [Strategy.calendar, Strategy.recent])

/-- C2: if the calendar strategy returns a non-empty date set without error,
`GetCommitActivity` returns that set, having invoked only the calendar
strategy, regardless of the full-scan flag; if the calendar strategy errors
or returns an empty set, exactly one of the other two strategies runs —
the full scan when the flag is set, the recent-events strategy otherwise —
and its result is returned. -/
theorem C2_fallback_ordering (cal recentRes fullRes : List Timestamp × Option GoError)
    (fullScan : Bool) :
    (cal.2 = none → cal.1 ≠ [] →
      GetCommitActivity cal recentRes fullRes fullScan
        = ((cal.1, none), [Strategy.calendar])) ∧
    ((cal.2 ≠ none ∨ cal.1 = []) →
      GetCommitActivity cal recentRes fullRes true
        = (fullRes, [Strategy.calendar, Strategy.fullHistory]) ∧
      GetCommitActivity cal recentRes fullRes false
        = (recentRes, [Strategy.calendar, Strategy.recent])) := by
  constructor
  · intro h2 h1
    rw [GetCommitActivity, if_pos ⟨h2, by simpa [List.isEmpty_iff] using h1⟩]
  · intro h
    have hneg : ¬ (cal.2 = none ∧ ¬ cal.1.isEmpty) := by
      rcases h with h | h
      · exact fun hc => h hc.1
      · exact fun hc => hc.2 (by simp [h])
    constructor
    · rw [GetCommitActivity, if_neg hneg, if_pos rfl]
    · rw [GetCommitActivity, if_neg hneg, if_neg (by simp)]

theorem C2_fallback_ordering_witness :
    (([⟨3, 0⟩], (none : Option GoError)) : List Timestamp × Option GoError).2 = none ∧
    GetCommitActivity ([⟨3, 0⟩], none) ([], none) ([], none) true
      = (([⟨3, 0⟩], none), [Strategy.calendar]) :=
  ⟨rfl, (C2_fallback_ordering ([⟨3, 0⟩], none) ([], none) ([], none) true).1 rfl
    (by decide)⟩

/-- Merge step of `GetContributionCalendar` (client.go lines 310-316): append
each fetched date to the accumulator unless its formatted date string is
already in `dateSet`; since the calendar dates are parsed day values and the
format is injective in the day, the set is exactly the accumulated list. -/
def mergeDedup (acc : List Int) (dates : List Int) : List Int :=
  dates.foldl (fun a d => if d ∈ a then a else a ++ [d]) acc

/-- Window loop of `GetContributionCalendar` (client.go lines 291-317) over
the remaining `yearsBack` values: a fetch error on window 0 (the most
recent year) fails the whole call, an error on a later window breaks out of
the loop with the accumulator; otherwise the window's dates are merged and
the walk continues. -/
def calendarLoop (fetch : Nat → Except GoError (List Int)) :
    List Nat → List Int → Except GoError (List Int)
  | [], acc => Except.ok acc
  | w :: ws, acc =>
    match fetch w with
    | Except.error e => if w = 0 then Except.error e else Except.ok acc
    | Except.ok dates => calendarLoop fetch ws (mergeDedup acc dates)

/-- Go `GetContributionCalendar` (client.go lines 286-320): walk the five
one-year windows `yearsBack = 0..4` backward from now.  `fetch w` models
`getContributionsForPeriod` for the window ending `w` years back (its dates
as day indices).  The source's `from.After(now)` / `to.After(now)` guards
are omitted: `to = now.AddDate(-w, 0, 0)` and `from = to.AddDate(-1, 0, 0)`
never lie after `now` for `w ≥ 0`, so neither guard can fire. -/
def GetContributionCalendar (fetch : Nat → Except GoError (List Int)) :
    Except GoError (List Int) :=
  calendarLoop fetch [0, 1, 2, 3, 4] []

/-- C6: a fetch failure on the first (most recent) window fails the whole
strategy with that error; a fetch failure on a later window `k ≤ 4` (all
earlier windows having succeeded) stops the walk early, returning without
error the deduplicated union of the dates of windows `0..k-1` accumulated
so far. -/
theorem C6_calendar_early_stop (fetch : Nat → Except GoError (List Int)) :
    (∀ e, fetch 0 = Except.error e →
      GetContributionCalendar fetch = Except.error e) ∧
    (∀ k, 1 ≤ k → k ≤ 4 → (∀ j, j < k → ∃ v, fetch j = Except.ok v) →
      ∀ e, fetch k = Except.error e →
      GetContributionCalendar fetch =
        Except.ok ((List.range k).foldl
          (fun acc j => mergeDedup acc ((fetch j).toOption.getD [])) [])) := by
  constructor
  · intro e he
    rw [GetContributionCalendar, calendarLoop, he]
    rfl
  · intro k hk1 hk4 hok e he
    interval_cases k
    · obtain ⟨v0, h0⟩ := hok 0 (by omega)
      simp [GetContributionCalendar, calendarLoop, h0, he, List.range_succ, Except.toOption]
    · obtain ⟨v0, h0⟩ := hok 0 (by omega)
      obtain ⟨v1, h1⟩ := hok 1 (by omega)
      simp [GetContributionCalendar, calendarLoop, h0, h1, he, List.range_succ, Except.toOption]
    · obtain ⟨v0, h0⟩ := hok 0 (by omega)
      obtain ⟨v1, h1⟩ := hok 1 (by omega)
      obtain ⟨v2, h2⟩ := hok 2 (by omega)
      simp [GetContributionCalendar, calendarLoop, h0, h1, h2, he,
        List.range_succ, Except.toOption]
    · obtain ⟨v0, h0⟩ := hok 0 (by omega)
      obtain ⟨v1, h1⟩ := hok 1 (by omega)
      obtain ⟨v2, h2⟩ := hok 2 (by omega)
      obtain ⟨v3, h3⟩ := hok 3 (by omega)
      simp [GetContributionCalendar, calendarLoop, h0, h1, h2, h3, he,
        List.range_succ, Except.toOption]

/-- Concrete strategy oracle for the C6 witness: window 0 yields day 5,
every later window fails. -/
def calFetchEx : Nat → Except GoError (List Int) :=
  fun n => if n = 0 then Except.ok [5] else Except.error "window unavailable"

theorem C6_calendar_early_stop_witness :
    GetContributionCalendar calFetchEx = Except.ok [5] := by
  have h := (C6_calendar_early_stop calFetchEx).2 1 (by decide) (by decide)
    (fun j hj => by
      cases j with
      | zero => exact ⟨[5], rfl⟩
      | succ n => omega)
    "window unavailable" rfl
  rw [h]
  rfl

/-- The repository fields the aggregation core reads (Go
`*github.Repository`): owner login, name, and the `Fork` flag, a `*bool`
whose `nil` is `none`. -/
structure Repo where
  owner : String
  name : String
  fork : Option Bool
  deriving Repr, DecidableEq

/-- One `languages[lang] += bytes` update of the shared accumulator map in
`GetLanguages` (client.go lines 142-144), on the association-list model of
the Go map (missing keys start at the zero value). -/
def addLangBytes (m : List (String × Int)) (lang : String) (bytes : Int) :
    List (String × Int) :=
  match m with
  | [] => [(lang, bytes)]
  | p :: rest =>
    if p.1 = lang then (p.1, p.2 + bytes) :: rest
    else p :: addLangBytes rest lang bytes

/-- The `for lang, bytes := range langs` merge loop of `GetLanguages`
(client.go lines 141-145): fold one repository's fetched language map into
the shared accumulator. -/
def mergeLangs (m : List (String × Int)) (langs : List (String × Int)) :
    List (String × Int) :=
  langs.foldl (fun acc p => addLangBytes acc p.1 p.2) m

/-- Go `GetLanguages` (client.go lines 116-160).  `fetch r` models
`Repositories.ListLanguages` for repository `r`.  The bounded goroutine
fan-out is linearized: the list order of the non-fork repositories stands
for the completion order, which fixes both the merge order (the merged map
is order-independent anyway) and which error `errChan` yields first.  Fork
repositories (`Fork != nil && *Fork`) are skipped before submission. -/
def langStep (fetch : Repo → Except GoError (List (String × Int)))
    (acc : List (String × Int) × Option GoError) (r : Repo) :
    List (String × Int) × Option GoError :=
  match fetch r with
  | Except.error e =>
    (acc.1, match acc.2 with
      | some e0 => some e0
      | none => some e)
  | Except.ok langs => (mergeLangs acc.1 langs, acc.2)

def GetLanguages (repos : List Repo)
    (fetch : Repo → Except GoError (List (String × Int))) :
    List (String × Int) × Option GoError :=
  (repos.filter fun r => r.fork != some true).foldl (langStep fetch) ([], none)

/-- Bytes recorded for `lang` in the accumulator map model (Go map lookup
with zero default). -/
def lookupBytes (m : List (String × Int)) (lang : String) : Int :=
  match m with
  | [] => 0
  | p :: rest => if p.1 = lang then p.2 else lookupBytes rest lang

/-- Total bytes a fetched per-repository language list reports for `lang`. -/
def bytesFor (langs : List (String × Int)) (lang : String) : Int :=
  ((langs.filter fun p => p.1 == lang).map Prod.snd).sum

/-- Bytes for `lang` summed over the successful fetches among `l` (failed
fetches contribute nothing). -/
def sumOkBytes (fetch : Repo → Except GoError (List (String × Int)))
    (l : List Repo) (lang : String) : Int :=
  (l.map fun r =>
    match fetch r with
    | Except.ok langs => bytesFor langs lang
    | Except.error _ => 0).sum

theorem lookupBytes_addLangBytes (m : List (String × Int)) (lang lang' : String)
    (bytes : Int) :
    lookupBytes (addLangBytes m lang bytes) lang'
      = lookupBytes m lang' + (if lang = lang' then bytes else 0) := by
  induction m with
  | nil =>
    simp only [addLangBytes, lookupBytes]
    split <;> rename_i h <;> simp [h]
  | cons p rest ih =>
    simp only [addLangBytes]
    split <;> rename_i hp
    · simp only [lookupBytes]
      split <;> rename_i hp'
      · subst hp
        simp [hp']
      · subst hp
        simp [hp']
    · simp only [lookupBytes]
      split <;> rename_i hp'
      · have : ¬ lang = lang' := fun h => hp (h ▸ hp')
        simp [this]
      · exact ih

theorem bytesFor_cons (p : String × Int) (rest : List (String × Int))
    (lang : String) :
    bytesFor (p :: rest) lang
      = (if p.1 = lang then p.2 else 0) + bytesFor rest lang := by
  simp only [bytesFor, List.filter_cons]
  by_cases hp : p.1 = lang <;> simp [hp]

theorem lookupBytes_mergeLangs (langs : List (String × Int))
    (m : List (String × Int)) (lang : String) :
    lookupBytes (mergeLangs m langs) lang
      = lookupBytes m lang + bytesFor langs lang := by
  induction langs generalizing m with
  | nil => simp [mergeLangs, bytesFor]
  | cons p rest ih =>
    show lookupBytes (mergeLangs (addLangBytes m p.1 p.2) rest) lang = _
    rw [ih, lookupBytes_addLangBytes, bytesFor_cons]
    by_cases hp : p.1 = lang
    · simp [hp]
      omega
    · simp [hp]

theorem langFold_lookup (fetch : Repo → Except GoError (List (String × Int)))
    (work : List Repo) (acc : List (String × Int) × Option GoError)
    (lang : String) :
    lookupBytes (work.foldl (langStep fetch) acc).1 lang
      = lookupBytes acc.1 lang + sumOkBytes fetch work lang := by
  induction work generalizing acc with
  | nil => simp [sumOkBytes]
  | cons r rest ih =>
    rw [List.foldl_cons, ih]
    rcases hfr : fetch r with e | langs
    · simp [langStep, hfr, sumOkBytes]
    · simp only [langStep, hfr, sumOkBytes, List.map_cons, List.sum_cons]
      rw [lookupBytes_mergeLangs]
      omega

theorem langFold_err_stays (fetch : Repo → Except GoError (List (String × Int)))
    (work : List Repo) (acc : List (String × Int) × Option GoError)
    (e0 : GoError) (h : acc.2 = some e0) :
    (work.foldl (langStep fetch) acc).2 = some e0 := by
  induction work generalizing acc with
  | nil => exact h
  | cons r rest ih =>
    rw [List.foldl_cons]
    apply ih
    rcases hfr : fetch r with e | langs <;> simp [langStep, hfr, h]

theorem langFold_ok_err (fetch : Repo → Except GoError (List (String × Int)))
    (work : List Repo) (acc : List (String × Int) × Option GoError)
    (h : ∀ r ∈ work, ∃ v, fetch r = Except.ok v) :
    (work.foldl (langStep fetch) acc).2 = acc.2 := by
  induction work generalizing acc with
  | nil => rfl
  | cons r rest ih =>
    rw [List.foldl_cons]
    obtain ⟨v, hv⟩ := h r (by simp)
    rw [ih _ (fun x hx => h x (by simp [hx]))]
    simp [langStep, hv]

/-- C3: in the language fan-out, if among the non-fork repositories exactly
one fetch fails (the work list splits as `pre ++ bad :: post` with every
repository in `pre` and `post` succeeding and `bad` failing with `e`), then
`GetLanguages` still returns, for every language, the byte count summed
over all successful fetches — including those that complete after the
failure — together with exactly the error `some e` (the first and only
recorded error).  Partial failure neither discards the successful merges
nor aborts the remaining fetches. -/
theorem C3_fanout_error_isolation (repos : List Repo)
    (fetch : Repo → Except GoError (List (String × Int)))
    (pre post : List Repo) (bad : Repo) (e : GoError)
    (hsplit : repos.filter (fun r => r.fork != some true) = pre ++ bad :: post)
    (hok : ∀ r ∈ pre ++ post, ∃ v, fetch r = Except.ok v)
    (hbad : fetch bad = Except.error e) :
    (GetLanguages repos fetch).2 = some e ∧
    ∀ lang, lookupBytes (GetLanguages repos fetch).1 lang
      = sumOkBytes fetch (repos.filter fun r => r.fork != some true) lang := by
  constructor
  · rw [GetLanguages, hsplit, List.foldl_append, List.foldl_cons]
    apply langFold_err_stays
    have hpre : (pre.foldl (langStep fetch) ([], none)).2 = none :=
      langFold_ok_err fetch pre ([], none)
        (fun r hr => hok r (List.mem_append.mpr (Or.inl hr)))
    simp [langStep, hbad, hpre]
  · intro lang
    rw [GetLanguages, langFold_lookup]
    simp [lookupBytes]

/-- Concrete repositories for the C3 witness. -/
def exRepoA : Repo := ⟨"u", "alpha", none⟩

/-- Concrete repositories for the C3 witness. -/
def exRepoB : Repo := ⟨"u", "beta", some false⟩

/-- Concrete repositories for the C3 witness. -/
def exRepoC : Repo := ⟨"u", "gamma", none⟩

/-- Concrete language fetch oracle for the C3 witness: `beta` fails, the
other two repositories succeed. -/
def exLangFetch : Repo → Except GoError (List (String × Int)) :=
  fun r =>
    if r.name = "beta" then Except.error "boom"
    else if r.name = "alpha" then Except.ok [("Go", 10)]
    else Except.ok [("Go", 5), ("Rust", 1)]

theorem C3_fanout_error_isolation_witness :
    (GetLanguages [exRepoA, exRepoB, exRepoC] exLangFetch).2 = some "boom" ∧
    lookupBytes (GetLanguages [exRepoA, exRepoB, exRepoC] exLangFetch).1 "Go" = 15 := by
  have h := C3_fanout_error_isolation [exRepoA, exRepoB, exRepoC] exLangFetch
    [exRepoA] [exRepoC] exRepoB "boom" (by decide)
    (fun r hr => by
      rcases List.mem_append.mp hr with hr | hr
      · rcases List.mem_singleton.mp hr with rfl
        exact ⟨[("Go", 10)], rfl⟩
      · rcases List.mem_singleton.mp hr with rfl
        exact ⟨[("Go", 5), ("Rust", 1)], rfl⟩)
    rfl
  refine ⟨h.1, ?_⟩
  rw [h.2 "Go"]
  decide

/-- One page of a repository's commit listing as `getRepoCommits` consumes
it (client.go lines 265-281): either a fetch error, or the page's commits —
`none` for a commit whose `Commit.Author.Date` chain has a nil — together
with the `resp.NextPage != 0` signal. -/
abbrev CommitPage := Except GoError (List (Option Timestamp) × Bool)

/-- Page loop of `getRepoCommits` (client.go lines 265-281): on a fetch
error, return the dates accumulated so far with a nil error (`return dates,
nil` — the error is swallowed); otherwise append the commits' author dates
(skipping nil chains) and continue while the server reports a next page.
The list argument is the sequence of page responses the server would
yield. -/
def repoCommitsLoop (acc : List Timestamp) :
    List CommitPage → List Timestamp × Option GoError
  | [] => (acc, none)
  | p :: rest =>
    match p with
    | Except.error _ => (acc, none)
    | Except.ok (commits, hasNext) =>
      if hasNext then repoCommitsLoop (acc ++ commits.filterMap id) rest
      else (acc ++ commits.filterMap id, none)

/-- Go `getRepoCommits` (client.go lines 258-284). -/
def getRepoCommits (pages : List CommitPage) : List Timestamp × Option GoError :=
  repoCommitsLoop [] pages

/-- Merge loop of `getCommitActivityFull` (client.go lines 233-241): append
each date whose formatted day string is not yet in the shared `dateSet`
(membership by day index, since the format is injective in the day). -/
def mergeDedupByDay (acc : List Timestamp) (dates : List Timestamp) :
    List Timestamp :=
  dates.foldl (fun a d => if d.day ∈ a.map Timestamp.day then a else a ++ [d]) acc

/-- Per-repository step of the full-scan fan-out (client.go lines 220-243):
run `getRepoCommits` on the repository's pages; on error, keep the first
recorded error (the dates are dropped for this repo); on success, merge the
dates into the shared deduplicated set. -/
def fullScanStep (commitPages : Repo → List CommitPage)
    (acc : List Timestamp × Option GoError) (r : Repo) :
    List Timestamp × Option GoError :=
  match (getRepoCommits (commitPages r)).2 with
  | some e =>
    (acc.1, match acc.2 with
      | some e0 => some e0
      | none => some e)
  | none => (mergeDedupByDay acc.1 (getRepoCommits (commitPages r)).1, acc.2)

/-- Go `getCommitActivityFull` (client.go lines 206-256): fetch the
repository list (`repoResult` models `GetRepositories`), then fan out over
all repositories (no fork filter here), merging each repository's commit
days into one deduplicated set; `errChan`'s first error — which can never
arrive, since `getRepoCommits` swallows its errors — would be returned
alongside the merged dates.  The goroutine fan-out is linearized as in
`GetLanguages`. -/
def getCommitActivityFull (repoResult : Except GoError (List Repo))
    (commitPages : Repo → List CommitPage) : List Timestamp × Option GoError :=
  match repoResult with
  | Except.error e => ([], some e)
  | Except.ok repos => repos.foldl (fullScanStep commitPages) ([], none)

theorem repoCommitsLoop_no_error (pages : List CommitPage) (acc : List Timestamp) :
    (repoCommitsLoop acc pages).2 = none := by
  induction pages generalizing acc with
  | nil => rfl
  | cons p rest ih =>
    rcases p with e | ⟨commits, hasNext⟩
    · rfl
    · simp only [repoCommitsLoop]
      split
      · exact ih _
      · rfl

theorem getRepoCommits_no_error (pages : List CommitPage) :
    (getRepoCommits pages).2 = none :=
  repoCommitsLoop_no_error pages []

theorem fullScanStep_eq (commitPages : Repo → List CommitPage)
    (acc : List Timestamp × Option GoError) (r : Repo) :
    fullScanStep commitPages acc r
      = (mergeDedupByDay acc.1 (getRepoCommits (commitPages r)).1, acc.2) := by
  rw [fullScanStep, getRepoCommits_no_error]

theorem fullScanFold_snd (commitPages : Repo → List CommitPage)
    (repos : List Repo) (acc : List Timestamp × Option GoError) :
    (repos.foldl (fullScanStep commitPages) acc).2 = acc.2 := by
  induction repos generalizing acc with
  | nil => rfl
  | cons r rest ih => rw [List.foldl_cons, ih, fullScanStep_eq]

theorem mergeDedupByDay_mem_day (dates : List Timestamp) (acc : List Timestamp)
    (d : Int) :
    d ∈ (mergeDedupByDay acc dates).map Timestamp.day
      ↔ d ∈ acc.map Timestamp.day ∨ d ∈ dates.map Timestamp.day := by
  induction dates generalizing acc with
  | nil => simp [mergeDedupByDay]
  | cons t rest ih =>
    show d ∈ (mergeDedupByDay (if t.day ∈ acc.map Timestamp.day then acc
        else acc ++ [t]) rest).map Timestamp.day ↔ _
    rw [ih]
    split
    · rename_i hmem
      simp only [List.map_cons, List.mem_cons]
      constructor
      · tauto
      · rintro (h | rfl | h) <;> tauto
    · simp only [List.map_append, List.mem_append, List.map_cons,
        List.mem_cons, List.map_nil, List.not_mem_nil]
      tauto

theorem fullScanFold_mono (commitPages : Repo → List CommitPage)
    (repos : List Repo) (acc : List Timestamp × Option GoError) (d : Int)
    (h : d ∈ acc.1.map Timestamp.day) :
    d ∈ (repos.foldl (fullScanStep commitPages) acc).1.map Timestamp.day := by
  induction repos generalizing acc with
  | nil => exact h
  | cons r rest ih =>
    rw [List.foldl_cons, fullScanStep_eq]
    exact ih _ ((mergeDedupByDay_mem_day _ _ _).mpr (Or.inl h))

/-- C7: a per-repository commit-fetch failure is silently absorbed —
`getRepoCommits` returns a nil error on every page sequence — so
`getCommitActivityFull` returns a non-nil error exactly when the initial
repository-list fetch fails (and then that error), and per-repository
failures never abort the scan or remove other repositories' contributions:
every day fetched for any listed repository appears in the merged set. -/
theorem C7_fullscan_absorbs_errors (repoResult : Except GoError (List Repo))
    (commitPages : Repo → List CommitPage) :
    (∀ pages, (getRepoCommits pages).2 = none) ∧
    (∀ e, repoResult = Except.error e →
      getCommitActivityFull repoResult commitPages = ([], some e)) ∧
    (∀ repos, repoResult = Except.ok repos →
      (getCommitActivityFull repoResult commitPages).2 = none ∧
      ∀ r ∈ repos, ∀ t ∈ (getRepoCommits (commitPages r)).1,
        t.day ∈ (getCommitActivityFull repoResult commitPages).1.map
          Timestamp.day) := by
  refine ⟨fun pages => getRepoCommits_no_error pages, ?_, ?_⟩
  · intro e he
    rw [he]
    rfl
  · intro repos hre
    subst hre
    refine ⟨fullScanFold_snd _ _ _, ?_⟩
    intro r hr t ht
    obtain ⟨l1, l2, rfl⟩ := List.append_of_mem hr
    show t.day ∈ ((l1 ++ r :: l2).foldl (fullScanStep commitPages)
      ([], none)).1.map Timestamp.day
    rw [List.foldl_append, List.foldl_cons, fullScanStep_eq]
    apply fullScanFold_mono
    apply (mergeDedupByDay_mem_day _ _ _).mpr
    exact Or.inr (List.mem_map_of_mem Timestamp.day ht)

/-- Concrete repository for the C7 witness. -/
def exRepoD : Repo := ⟨"u", "delta", none⟩

/-- Concrete page oracle for the C7 witness: one successful page holding a
commit on day 3 and a commit with a nil date chain, then a failing page. -/
def exCommitPages : Repo → List CommitPage :=
  fun _ => [Except.ok ([some ⟨3, 7⟩, none], true), Except.error "boom"]

theorem C7_fullscan_absorbs_errors_witness :
    (getCommitActivityFull (Except.ok [exRepoD]) exCommitPages).2 = none ∧
    (3 : Int) ∈ (getCommitActivityFull (Except.ok [exRepoD])
      exCommitPages).1.map Timestamp.day := by
  have h := (C7_fullscan_absorbs_errors (Except.ok [exRepoD]) exCommitPages).2.2
    [exRepoD] rfl
  refine ⟨h.1, ?_⟩
  have hm := h.2 exRepoD (by simp) ⟨3, 7⟩ (by decide)
  exact hm
